import Mathlib

/-!
Verification development for the PSSM (position-specific scoring matrix)
core of the `cgb` repository (`cgb/PSSM_model.py`, `cgb/misc.py`).

Matrix entries, weights and background frequencies are modelled as exact
rationals (`ℚ`); the only real-valued step is the strand-combination
`log2(2**f + 2**r)` and the `-log2(tail)` comparison of the patser
threshold, modelled over `ℝ` with `Real.logb`.

Python failure modes are modelled with an explicit error type: the
`assert` statements of `_combine_pwms` raise `AssertionError` (modelled
as `shapeMismatch`), division by a zero weight total raises
`ZeroDivisionError` (modelled as `invalidWeights`), and `pwms[0]` on an
empty list raises `IndexError` (modelled as `emptyInput`).  Calls into
the external Biopython library are modelled from the spec and marked as
such in their doc comments.
-/

/-- Error taxonomy of the core, following the spec names. `emptyInput`
models the `IndexError` that `pwms[0]` raises on an empty input list. -/
inductive Err where
  | emptyInput
  | shapeMismatch
  | invalidWeights
  | sequenceTooShort
  | thresholdUnattainable
  | unsupportedThresholdMethod
  deriving DecidableEq, Repr

/-- A position-weight matrix as Biopython stores it: an alphabet and, for
each letter, a column of per-position values (`pwm[letter][i]`).  Values
are total functions of letter and position; entries outside
`[0, length)` are never consulted by the code. -/
structure PWM where
  alphabet : List Char
  length : Nat
  vals : Char → Nat → ℚ

/-- Sum of row `i` of a PWM: the total weight position `i` assigns over
the alphabet. -/
def rowSum (p : PWM) (i : Nat) : ℚ :=
  (p.alphabet.map (fun c => p.vals c i)).sum

/-- Embedding of `PSSMModel._combine_pwms` (PSSM_model.py lines
112-127): check all PWMs share the first one's length, then its
alphabet, normalize the weights by their total, and build the
position-wise weighted sum `sum(pwm[let][i]*w for pwm, w in
zip(pwms, weights))`.  Failure modes follow the Python evaluation
order: `pwms[0]` on an empty list fails first, then the two asserts,
then the division by `sum(weights)`. -/
def combine_pwms (pwms : List PWM) (weights : List ℚ) : Except Err PWM :=
  match pwms with
  | [] => .error .emptyInput
  | p0 :: _ =>
    if pwms.all (fun p => p.length = p0.length) then
      if pwms.all (fun p => p.alphabet = p0.alphabet) then
        if weights.sum = 0 then .error .invalidWeights
        else
          let ws := weights.map (fun w => w / weights.sum)
          .ok { alphabet := p0.alphabet
                length := p0.length
                vals := fun c i =>
                  ((pwms.zip ws).map (fun pw => pw.1.vals c i * pw.2)).sum }
      else .error .shapeMismatch
    else .error .shapeMismatch

/-- Embedding of `misc.log2` (misc.py lines 13-15): logarithm in base 2,
`math.log(x, 2)`, over exact reals. -/
noncomputable def log2 (x : ℝ) : ℝ := Real.logb 2 x

/-- Forward score of the window starting at offset `i`: the sum over the
matrix positions `j` of the scoring-matrix entry for the symbol at
`i + j` of the sequence, `Σ_j scoringMatrix[j][sequence[i+j]]`.  A
scoring matrix is a list of per-position score columns. -/
def windowScore (mat : List (Char → ℚ)) (seq : List Char) (i : Nat) : ℚ :=
  ((List.range mat.length).map
    (fun j => (mat.getD j (fun _ => 0)) (seq.getD (i + j) 'A'))).sum

/-- Modelled from the spec: Biopython's
`PositionSpecificScoringMatrix.calculate` is external to the repository.
Per the spec's SequenceScanner contract it fails when the query is
shorter than the matrix (`SequenceTooShort`), returns a single scalar
when the query length equals the matrix length (documented by the
inline comment in `score_seq`: Biopython returns a single number if
`len(seq) == len(pssm)`), and otherwise returns one window score per
offset `0 .. n-L` in left-to-right order. -/
def calculate (mat : List (Char → ℚ)) (seq : List Char) : Except Err (ℚ ⊕ List ℚ) :=
  if seq.length < mat.length then .error .sequenceTooShort
  else if seq.length = mat.length then .ok (.inl (windowScore mat seq 0))
  else .ok (.inr ((List.range (seq.length - mat.length + 1)).map (windowScore mat seq)))

/-- The list-wrapping step of `score_seq` (PSSM_model.py lines 103-105):
a scalar returned by Biopython for `len(seq) == len(pssm)` is wrapped
into a one-element list, a list is kept as is. -/
def unwrapScores (s : ℚ ⊕ List ℚ) : List ℚ :=
  match s with
  | .inl x => [x]
  | .inr xs => xs

/-- Embedding of `PSSMModel.score_seq` (PSSM_model.py lines 89-110):
score the sequence with the scoring matrix and with its
reverse-complement counterpart, wrap the scalar returned for
`len(seq) == length` into a one-element list, and if `both` holds
combine the two strand scores of each window with
`log2(2**score + 2**rc_score)`; otherwise return the forward scores. -/
noncomputable def score_seq (pssm rc : List (Char → ℚ)) (seq : List Char)
    (both : Bool) : Except Err (List ℝ) :=
  match calculate pssm seq, calculate rc seq with
  | .ok s, .ok r =>
    let scores := unwrapScores s
    let rcScores := unwrapScores r
    .ok (if both then
          List.zipWith (fun (f g : ℚ) =>
            log2 ((2:ℝ) ^ ((f : ℚ) : ℝ) + (2:ℝ) ^ ((g : ℚ) : ℝ))) scores rcScores
        else scores.map (fun (x : ℚ) => ((x : ℚ) : ℝ)))
  | .error e, _ => .error e
  | .ok _, .error e => .error e

/-- Modelled from the spec: Biopython's `pssm.mean()` is external to the
repository; per the spec, `informationContent()` is the expectation of
the scoring matrix under the background distribution summed over all
positions, `Σ_p Σ_s background[s] * scoringMatrix[p][s]`. -/
def pssm_mean (alphabet : List Char) (background : Char → ℚ)
    (pssm : List (Char → ℚ)) : ℚ :=
  (pssm.map (fun col => (alphabet.map (fun s => background s * col s)).sum)).sum

/-- Embedding of `PSSMModel.IC` (PSSM_model.py lines 58-61):
`return self.pssm.mean()`. -/
def IC (alphabet : List Char) (background : Char → ℚ)
    (pssm : List (Char → ℚ)) : ℚ :=
  pssm_mean alphabet background pssm

/-- Modelled from the spec: the discretized score distribution built by
Biopython's `pssm.distribution(precision=10**3)` is external to the
repository.  It is represented by its probability mass function: a list
of (score, probability) pairs whose scores are in strictly ascending
order.  `tailProb d t` is the tail probability `P(score ≥ t)`. -/
def tailProb (d : List (ℚ × ℚ)) (t : ℚ) : ℚ :=
  ((d.filter (fun e => t ≤ e.1)).map (fun e => e.2)).sum

/-- Modelled from the spec: the search inside Biopython's
`threshold_patser` — walk the discretized support in ascending order
and return the first score `s` with `-log2(P(score ≥ s)) ≥ ic`; if no
support point qualifies, fail with `ThresholdUnattainable`. -/
noncomputable def patser_search (ic : ℝ) (d : List (ℚ × ℚ)) :
    List ℚ → Except Err ℚ
  | [] => .error .thresholdUnattainable
  | s :: rest =>
    haveI : Decidable (ic ≤ -log2 ((tailProb d s : ℚ) : ℝ)) :=
      Classical.propDecidable _
    if ic ≤ -log2 ((tailProb d s : ℚ) : ℝ) then .ok s else patser_search ic d rest

/-- Embedding of `PSSMModel.patser_threshold` (PSSM_model.py lines
63-71): build the discretized score distribution and return its patser
threshold, the smallest support score whose tail false-positive rate
satisfies `-log2(FPR) ≥ IC`. -/
noncomputable def patser_threshold (d : List (ℚ × ℚ)) (ic : ℝ) : Except Err ℚ :=
  patser_search ic d (d.map Prod.fst)

/-- Embedding of `PSSMModel.threshold` (PSSM_model.py lines 73-78): for
threshold type `patser` return the patser threshold, for any other type
raise (`ValueError`, modelled with the spec's name
`UnsupportedThresholdMethod`). -/
noncomputable def threshold (d : List (ℚ × ℚ)) (ic : ℝ) (ttype : String) :
    Except Err ℚ :=
  if ttype = "patser" then patser_threshold d ic
  else .error .unsupportedThresholdMethod

/-- Example matrix: position 0 puts all weight on `A`. -/
def pwmA : PWM :=
  ⟨['A', 'C', 'G', 'T'], 1, fun c _ => if c = 'A' then 1 else 0⟩

/-- Example matrix: uniform weight at its single position. -/
def pwmU : PWM :=
  ⟨['A', 'C', 'G', 'T'], 1, fun _ _ => 1/4⟩

/-- Example matrix of length 2, used for shape-mismatch inputs. -/
def pwmL2 : PWM :=
  ⟨['A', 'C', 'G', 'T'], 2, fun _ _ => 1/4⟩

/-- The combined matrix that `combine_pwms [pwmA, pwmU] [2, 1]`
produces. -/
def q0 : PWM :=
  ⟨['A', 'C', 'G', 'T'], 1, fun c i =>
    (([pwmA, pwmU].zip (([(2:ℚ), 1] : List ℚ).map
        (fun w => w / ([(2:ℚ), 1] : List ℚ).sum))).map
      (fun pw => pw.1.vals c i * pw.2)).sum⟩

/-- Example scoring matrix of length 1: rewards `A`. -/
def matEx : List (Char → ℚ) := [fun c => if c = 'A' then 2 else -1]

/-- Example reverse-complement scoring matrix of length 1: rewards
`T`. -/
def rcEx : List (Char → ℚ) := [fun c => if c = 'T' then 2 else -1]

/-- Example discretized score distribution: a single score 1 with
probability 1. -/
def dEx : List (ℚ × ℚ) := [((1 : ℚ), (1 : ℚ))]

section SumLemmas

/-- Summing a pointwise sum of two functions over a list splits into two
sums. -/
theorem sum_map_add {α : Type} (l : List α) (f g : α → ℚ) :
    (l.map (fun x => f x + g x)).sum = (l.map f).sum + (l.map g).sum := by
  induction l with
  | nil => simp
  | cons a t ih => simp [ih]; ring

/-- A constant factor moves out of a mapped sum. -/
theorem sum_map_mul_right {α : Type} (l : List α) (f : α → ℚ) (a : ℚ) :
    (l.map (fun x => f x * a)).sum = (l.map f).sum * a := by
  induction l with
  | nil => simp
  | cons b t ih => simp [ih]; ring

/-- Exchanging the two nested list sums that appear in a combined PWM
entry: summing the per-source contributions over the alphabet equals
summing each source's row total. -/
theorem rowSum_of_zip (alph : List Char) (i : Nat) :
    ∀ l : List (PWM × ℚ),
      (alph.map (fun c => (l.map (fun pw => pw.1.vals c i * pw.2)).sum)).sum
        = (l.map (fun pw => (alph.map (fun c => pw.1.vals c i)).sum * pw.2)).sum := by
  intro l
  induction l with
  | nil => simp
  | cons hd tl ih =>
    simp only [List.map_cons, List.sum_cons]
    rw [sum_map_add alph (fun c => hd.1.vals c i * hd.2)
          (fun c => (tl.map (fun pw => pw.1.vals c i * pw.2)).sum), ih,
        sum_map_mul_right]

end SumLemmas

/-- Division by a common denominator moves out of a mapped sum. -/
theorem sum_map_div (l : List ℚ) (a : ℚ) :
    (l.map (fun x => x / a)).sum = l.sum / a := by
  induction l with
  | nil => simp
  | cons b t ih => simp [ih]; ring

/-- Characterization of a successful `combine_pwms` call: the input list
is non-empty, all lengths and alphabets match the first matrix, the
weight total is nonzero, and the result is the weighted sum with
normalized weights. -/
theorem combine_pwms_ok (pwms : List PWM) (weights : List ℚ) (q : PWM)
    (h : combine_pwms pwms weights = .ok q) :
    ∃ p0 rest, pwms = p0 :: rest ∧
      (∀ p ∈ pwms, p.length = p0.length) ∧
      (∀ p ∈ pwms, p.alphabet = p0.alphabet) ∧
      weights.sum ≠ 0 ∧
      q = ⟨p0.alphabet, p0.length, fun c i =>
        ((pwms.zip (weights.map (fun w => w / weights.sum))).map
          (fun pw => pw.1.vals c i * pw.2)).sum⟩ := by
  match pwms with
  | [] => simp [combine_pwms] at h
  | p0 :: rest =>
    refine ⟨p0, rest, rfl, ?_⟩
    simp only [combine_pwms] at h
    split_ifs at h with hL hA hW
    · simp only [Except.ok.injEq] at h
      refine ⟨?_, ?_, hW, h.symm⟩
      · intro p hp
        exact of_decide_eq_true (List.all_eq_true.mp hL p hp)
      · intro p hp
        exact of_decide_eq_true (List.all_eq_true.mp hA p hp)


/-- C1: for every non-empty list of source weight matrices of equal
length over the same alphabet (a successful combination), with one
weight per matrix and a nonzero weight total, every row of the combined
weight matrix sums to exactly 1, given that every row of each source
matrix sums to 1. -/
theorem combined_row_sums_to_one (pwms : List PWM) (weights : List ℚ) (q : PWM)
    (hw : weights.length = pwms.length)
    (hrows : ∀ p ∈ pwms, ∀ i < p.length, rowSum p i = 1)
    (hok : combine_pwms pwms weights = .ok q) :
    ∀ i < q.length, rowSum q i = 1 := by
  obtain ⟨p0, rest, hcons, hLen, hAlph, hS, hq⟩ := combine_pwms_ok pwms weights q hok
  intro i hi
  have hql : q.length = p0.length := by rw [hq]
  subst hq
  simp only [rowSum]
  rw [rowSum_of_zip]
  have hcongr : ∀ pw ∈ pwms.zip (weights.map (fun w => w / weights.sum)),
      (p0.alphabet.map (fun c => pw.1.vals c i)).sum * pw.2 = pw.2 := by
    intro pw hpw
    have hmem : pw.1 ∈ pwms := (List.of_mem_zip hpw).1
    have h1 : (p0.alphabet.map (fun c => pw.1.vals c i)).sum = rowSum pw.1 i := by
      rw [rowSum, hAlph pw.1 hmem]
    rw [h1, hrows pw.1 hmem i (by rw [hLen pw.1 hmem]; exact hql ▸ hi), one_mul]
  rw [List.map_congr_left hcongr]
  have hzip : (pwms.zip (weights.map (fun w => w / weights.sum))).map
      (fun pw => pw.2) = weights.map (fun w => w / weights.sum) := by
    exact List.map_snd_zip _ _ (by simp [hw])
  rw [hzip, sum_map_div, div_self hS]

/-- Combining the two example matrices with weights [2, 1] succeeds and
produces `q0`. -/
theorem combine_example : combine_pwms [pwmA, pwmU] [2, 1] = .ok q0 := by
  rw [combine_pwms]
  norm_num [pwmA, pwmU, q0]

/-- Every row of each example matrix sums to 1. -/
theorem rows_example : ∀ p ∈ [pwmA, pwmU], ∀ i < p.length, rowSum p i = 1 := by
  intro p hp i hi
  fin_cases hp <;>
    · simp only [pwmA, pwmU] at hi ⊢
      interval_cases i
      simp +decide [rowSum, pwmA, pwmU]
      try norm_num

/-- Witness for C1: combining the two example matrices with weights
[2, 1] succeeds and row 0 of the result sums to 1. -/
theorem combined_row_sums_to_one_witness : rowSum q0 0 = 1 :=
  combined_row_sums_to_one [pwmA, pwmU] [2, 1] q0 rfl rows_example
    combine_example 0 (by norm_num [q0])

/-- C2: every entry of the combined matrix at position `i` and symbol
`c` is the weighted average of the source entries, each source matrix
`k` contributing with coefficient `weight_k / (sum of all weights)`. -/
theorem combined_entry_eq_weighted_avg (pwms : List PWM) (weights : List ℚ)
    (q : PWM) (hw : weights.length = pwms.length)
    (hok : combine_pwms pwms weights = .ok q) :
    ∀ c i, q.vals c i =
      ((pwms.zip weights).map
        (fun pw => pw.2 / weights.sum * pw.1.vals c i)).sum := by
  obtain ⟨p0, rest, hcons, hLen, hAlph, hS, hq⟩ := combine_pwms_ok pwms weights q hok
  intro c i
  subst hq
  simp only
  rw [List.zip_map_right, List.map_map]
  apply congrArg List.sum
  apply List.map_congr_left
  intro pw _
  simp only [Function.comp_apply, Prod.map_fst, Prod.map_snd, id_eq]
  ring

/-- Witness for C2: the combined example entry at symbol `A`, position 0
equals the weighted average of the two source entries there. -/
theorem combined_entry_eq_weighted_avg_witness : q0.vals 'A' 0 =
    (([pwmA, pwmU].zip ([2, 1] : List ℚ)).map
      (fun pw => pw.2 / ([2, 1] : List ℚ).sum * pw.1.vals 'A' 0)).sum :=
  combined_entry_eq_weighted_avg [pwmA, pwmU] [2, 1] q0 rfl combine_example 'A' 0

/-- Scaling a list by a constant scales its sum. -/
theorem sum_map_const_mul (l : List ℚ) (a : ℚ) :
    (l.map (fun x => a * x)).sum = a * l.sum := by
  induction l with
  | nil => simp
  | cons b t ih => simp [ih]; ring

/-- C7: whenever some pair of input matrices differs in length or in
alphabet, combining fails with a ShapeMismatch error and never produces
a combined matrix. -/
theorem mismatch_fails_shape (pwms : List PWM) (weights : List ℚ)
    (h : ∃ p ∈ pwms, ∃ p' ∈ pwms,
      p.length ≠ p'.length ∨ p.alphabet ≠ p'.alphabet) :
    combine_pwms pwms weights = .error .shapeMismatch := by
  obtain ⟨p, hp, p', hp', hne⟩ := h
  match pwms with
  | [] => cases hp
  | p0 :: rest =>
    simp only [combine_pwms]
    by_cases hL : ((p0 :: rest).all (fun x => x.length = p0.length)) = true
    · rw [if_pos hL]
      have halleq : ∀ x ∈ p0 :: rest, x.length = p0.length := fun x hx =>
        of_decide_eq_true (List.all_eq_true.mp hL x hx)
      have halph : p.alphabet ≠ p'.alphabet := by
        rcases hne with h1 | h2
        · exact absurd ((halleq p hp).trans (halleq p' hp').symm) h1
        · exact h2
      have hA : ¬ ((p0 :: rest).all (fun x => x.alphabet = p0.alphabet)) = true := by
        intro hA
        have h3 := of_decide_eq_true (List.all_eq_true.mp hA p hp)
        have h4 := of_decide_eq_true (List.all_eq_true.mp hA p' hp')
        exact halph (h3.trans h4.symm)
      rw [if_neg hA]
    · rw [if_neg hL]

/-- Witness for C7: combining a length-1 matrix with a length-2 matrix
fails with ShapeMismatch. -/
theorem mismatch_fails_shape_witness :
    combine_pwms [pwmA, pwmL2] [1, 1] = .error .shapeMismatch :=
  mismatch_fails_shape [pwmA, pwmL2] [1, 1]
    ⟨pwmA, by simp, pwmL2, by simp, Or.inl (by decide)⟩

/-- Counterexample for C8 as stated: with two matrices of differing
lengths and weights [1, -1] (total 0), combining fails with
ShapeMismatch, not InvalidWeights — the shape asserts run before weight
normalization. -/
theorem zero_weights_counterexample :
    ([1, -1] : List ℚ).sum = 0 ∧
    combine_pwms [pwmA, pwmL2] [1, -1] = .error .shapeMismatch ∧
    (Except.error Err.shapeMismatch : Except Err PWM) ≠ .error .invalidWeights := by
  refine ⟨by norm_num, ?_, by simp⟩
  rw [combine_pwms]
  simp +decide [pwmA, pwmL2]

/-- C8 as amended: for every non-empty list of source weight matrices
of equal length over the same alphabet, and every weight vector whose
total is zero, combining fails with an InvalidWeights error rather than
producing a result. -/
theorem zero_total_weight_fails (pwms : List PWM) (weights : List ℚ)
    (hne : pwms ≠ [])
    (hshape : ∀ p ∈ pwms, ∀ p' ∈ pwms,
      p.length = p'.length ∧ p.alphabet = p'.alphabet)
    (hsum : weights.sum = 0) :
    combine_pwms pwms weights = .error .invalidWeights := by
  match pwms with
  | [] => exact absurd rfl hne
  | p0 :: rest =>
    simp only [combine_pwms]
    have h1 : ((p0 :: rest).all (fun p => p.length = p0.length)) = true :=
      List.all_eq_true.mpr fun p hp =>
        decide_eq_true (hshape p hp p0 (by simp)).1
    have h2 : ((p0 :: rest).all (fun p => p.alphabet = p0.alphabet)) = true :=
      List.all_eq_true.mpr fun p hp =>
        decide_eq_true (hshape p hp p0 (by simp)).2
    rw [if_pos h1, if_pos h2, if_pos hsum]

/-- Witness for the amended C8: two compatible matrices with weights
[1, -1] fail with InvalidWeights. -/
theorem zero_total_weight_fails_witness :
    combine_pwms [pwmA, pwmU] [1, -1] = .error .invalidWeights :=
  zero_total_weight_fails [pwmA, pwmU] [1, -1] (by simp) (by decide) (by norm_num)

/-- C10: combining is invariant under positive rescaling of the weight
vector — for compatible matrices, one weight per matrix and nonzero
weight total, scaling every weight by `c > 0` leaves the combined
matrix unchanged. -/
theorem combine_scale_invariant (pwms : List PWM) (weights : List ℚ) (c : ℚ)
    (hc : 0 < c) (hne : pwms ≠ [])
    (hshape : ∀ p ∈ pwms, ∀ p' ∈ pwms,
      p.length = p'.length ∧ p.alphabet = p'.alphabet)
    (hw : weights.length = pwms.length) (hsum : weights.sum ≠ 0) :
    combine_pwms pwms (weights.map (fun w => c * w)) =
      combine_pwms pwms weights := by
  match pwms with
  | [] => rfl
  | p0 :: rest =>
    have hcs : (weights.map (fun w => c * w)).sum = c * weights.sum :=
      sum_map_const_mul weights c
    have hzero : ¬ ((weights.map (fun w => c * w)).sum = 0) := by
      rw [hcs]
      exact mul_ne_zero (ne_of_gt hc) hsum
    have hws : (weights.map (fun w => c * w)).map
        (fun w => w / (weights.map (fun w => c * w)).sum) =
        weights.map (fun w => w / weights.sum) := by
      rw [hcs, List.map_map]
      apply List.map_congr_left
      intro w _
      simp only [Function.comp_apply]
      rw [mul_div_mul_left _ _ (ne_of_gt hc)]
    simp only [combine_pwms]
    rw [hws]
    split_ifs with h1 h2 <;> rfl

/-- Witness for C10: doubling the weights [2, 1] leaves the combined
example matrix unchanged. -/
theorem combine_scale_invariant_witness :
    combine_pwms [pwmA, pwmU] (([2, 1] : List ℚ).map (fun w => 2 * w)) =
      combine_pwms [pwmA, pwmU] [2, 1] :=
  combine_scale_invariant [pwmA, pwmU] [2, 1] 2 (by norm_num) (by simp)
    (by decide) rfl (by norm_num)

/-- Evaluation of `score_seq` on a query shorter than the matrix: the
first `calculate` call fails and the error propagates. -/
theorem score_seq_of_short (pssm rc : List (Char → ℚ)) (seq : List Char)
    (both : Bool) (h : seq.length < pssm.length) :
    score_seq pssm rc seq both = .error .sequenceTooShort := by
  have h1 : calculate pssm seq = .error .sequenceTooShort := by
    rw [calculate, if_pos h]
  unfold score_seq
  rw [h1]

/-- Evaluation of `score_seq` when the query length equals the matrix
length: both strands yield a scalar, wrapped into a one-element list. -/
theorem score_seq_of_eq (pssm rc : List (Char → ℚ)) (seq : List Char)
    (both : Bool) (hrc : rc.length = pssm.length)
    (heq : seq.length = pssm.length) :
    score_seq pssm rc seq both =
      .ok (if both then
            [log2 ((2:ℝ) ^ ((windowScore pssm seq 0 : ℚ) : ℝ)
              + (2:ℝ) ^ ((windowScore rc seq 0 : ℚ) : ℝ))]
          else [((windowScore pssm seq 0 : ℚ) : ℝ)]) := by
  have h1 : calculate pssm seq = .ok (.inl (windowScore pssm seq 0)) := by
    rw [calculate, if_neg (by omega), if_pos heq]
  have h2 : calculate rc seq = .ok (.inl (windowScore rc seq 0)) := by
    rw [calculate, if_neg (by rw [hrc]; omega), if_pos (by rw [hrc]; exact heq)]
  unfold score_seq
  rw [h1, h2]
  cases both <;> rfl

/-- Evaluation of `score_seq` on a query strictly longer than the
matrix: one score per window offset, per strand. -/
theorem score_seq_of_long (pssm rc : List (Char → ℚ)) (seq : List Char)
    (both : Bool) (hrc : rc.length = pssm.length)
    (hgt : pssm.length < seq.length) :
    score_seq pssm rc seq both =
      .ok (if both then
            List.zipWith (fun (f g : ℚ) => log2 ((2:ℝ) ^ (f:ℝ) + (2:ℝ) ^ (g:ℝ)))
              ((List.range (seq.length - pssm.length + 1)).map (windowScore pssm seq))
              ((List.range (seq.length - pssm.length + 1)).map (windowScore rc seq))
          else ((List.range (seq.length - pssm.length + 1)).map
            (windowScore pssm seq)).map (fun (x : ℚ) => ((x : ℚ) : ℝ))) := by
  have h1 : calculate pssm seq =
      .ok (.inr ((List.range (seq.length - pssm.length + 1)).map
        (windowScore pssm seq))) := by
    rw [calculate, if_neg (by omega), if_neg (by omega)]
  have h2 : calculate rc seq =
      .ok (.inr ((List.range (seq.length - pssm.length + 1)).map
        (windowScore rc seq))) := by
    rw [calculate, hrc, if_neg (by omega), if_neg (by omega)]
  unfold score_seq
  rw [h1, h2]
  cases both <;> rfl

/-- C3: for a scoring matrix of length L (and its reverse-complement
matrix of the same length) and a query of length n ≥ L, score_seq
succeeds with exactly n - L + 1 scores; in particular for n = L it is a
one-element list, never a bare scalar. -/
theorem score_seq_length (pssm rc : List (Char → ℚ)) (seq : List Char)
    (both : Bool) (hrc : rc.length = pssm.length)
    (hn : pssm.length ≤ seq.length) :
    ∃ out, score_seq pssm rc seq both = .ok out ∧
      out.length = seq.length - pssm.length + 1 := by
  by_cases heq : seq.length = pssm.length
  · refine ⟨_, score_seq_of_eq pssm rc seq both hrc heq, ?_⟩
    cases both <;> simp [heq]
  · have hgt : pssm.length < seq.length := lt_of_le_of_ne hn (fun a => heq a.symm)
    refine ⟨_, score_seq_of_long pssm rc seq both hrc hgt, ?_⟩
    cases both <;> simp

/-- Witness for C3: a length-1 matrix scoring the length-1 query "A"
returns a one-element list of scores. -/
theorem score_seq_length_witness :
    ∃ out, score_seq matEx rcEx ['A'] true = .ok out ∧ out.length = 1 := by
  simpa using score_seq_length matEx rcEx ['A'] true rfl (by decide)

/-- C4: with strand combination enabled, every returned window score is
log2(2^f + 2^r) where f and r are the forward and reverse-complement
window scores; with strand combination disabled, score_seq returns
exactly the forward scores. -/
theorem score_seq_strand_rule (pssm rc : List (Char → ℚ)) (seq : List Char)
    (hrc : rc.length = pssm.length) (hn : pssm.length ≤ seq.length) :
    score_seq pssm rc seq true =
      .ok ((List.range (seq.length - pssm.length + 1)).map
        (fun i => log2 ((2:ℝ) ^ ((windowScore pssm seq i : ℚ) : ℝ)
          + (2:ℝ) ^ ((windowScore rc seq i : ℚ) : ℝ)))) ∧
    score_seq pssm rc seq false =
      .ok ((List.range (seq.length - pssm.length + 1)).map
        (fun i => ((windowScore pssm seq i : ℚ) : ℝ))) := by
  by_cases heq : seq.length = pssm.length
  · constructor
    · rw [score_seq_of_eq pssm rc seq true hrc heq]
      simp only [heq, Nat.sub_self, if_true]
      rfl
    · rw [score_seq_of_eq pssm rc seq false hrc heq]
      simp only [heq, Nat.sub_self, Bool.false_eq_true, if_false]
      rfl
  · have hgt : pssm.length < seq.length := lt_of_le_of_ne hn (fun a => heq a.symm)
    constructor
    · rw [score_seq_of_long pssm rc seq true hrc hgt]
      simp only [if_true]
      rw [List.zipWith_map_left, List.zipWith_map_right, List.zipWith_same]
    · rw [score_seq_of_long pssm rc seq false hrc hgt]
      simp [List.map_map, Function.comp]

/-- Witness for C4: scoring the query "A" with the length-1 example
matrices gives the log-sum-exp combined score with strands combined and
the bare forward score otherwise. -/
theorem score_seq_strand_rule_witness :
    score_seq matEx rcEx ['A'] true =
      .ok [log2 ((2:ℝ) ^ ((windowScore matEx ['A'] 0 : ℚ) : ℝ)
        + (2:ℝ) ^ ((windowScore rcEx ['A'] 0 : ℚ) : ℝ))] ∧
    score_seq matEx rcEx ['A'] false =
      .ok [((windowScore matEx ['A'] 0 : ℚ) : ℝ)] := by
  have h := score_seq_strand_rule matEx rcEx ['A'] rfl (by decide)
  simpa using h

/-- C9: a query shorter than the scoring matrix makes score_seq fail
with SequenceTooShort — no truncation, padding, or partial result. -/
theorem seq_too_short_fails (pssm rc : List (Char → ℚ)) (seq : List Char)
    (both : Bool) (hn : seq.length < pssm.length) :
    score_seq pssm rc seq both = .error .sequenceTooShort :=
  score_seq_of_short pssm rc seq both hn

/-- Witness for C9: the empty query against the length-1 example matrix
fails with SequenceTooShort. -/
theorem seq_too_short_fails_witness :
    score_seq matEx rcEx [] true = .error .sequenceTooShort :=
  seq_too_short_fails matEx rcEx [] true (by decide)

/-- Mapping over the index range with a default-read is the same as
mapping over the list. -/
theorem map_range_getD {α β : Type} (l : List α) (d : α) (f : α → β) :
    (List.range l.length).map (fun p => f (l.getD p d)) = l.map f := by
  induction l with
  | nil => simp
  | cons a t ih =>
    rw [List.length_cons, List.range_succ_eq_map, List.map_cons, List.map_map]
    simp only [List.getD_cons_zero, Function.comp_def, List.getD_cons_succ,
      List.map_cons]
    rw [ih]

/-- C6: informationContent equals the expectation of the scoring matrix
under the model's background distribution summed over all positions,
`Σ_p Σ_s background[s] * scoringMatrix[p][s]`. -/
theorem IC_eq_expected_score (alphabet : List Char) (background : Char → ℚ)
    (pssm : List (Char → ℚ)) :
    IC alphabet background pssm =
      ((List.range pssm.length).map
        (fun p => (alphabet.map
          (fun s => background s * (pssm.getD p (fun _ => 0)) s)).sum)).sum := by
  rw [IC, pssm_mean]
  exact congrArg List.sum (map_range_getD pssm (fun _ => 0)
    (fun col => (alphabet.map (fun s => background s * col s)).sum)).symm

/-- Specification of the patser support search: a returned score is in
the support, satisfies the tail condition, and — when the support is in
strictly ascending order — no smaller support score satisfies it. -/
theorem patser_search_spec (ic : ℝ) (d : List (ℚ × ℚ)) :
    ∀ l : List ℚ, List.Pairwise (fun a b => a < b) l →
      ∀ t : ℚ, patser_search ic d l = .ok t →
        t ∈ l ∧ ic ≤ -log2 ((tailProb d t : ℚ) : ℝ) ∧
        ∀ s ∈ l, s < t → ¬ (ic ≤ -log2 ((tailProb d s : ℚ) : ℝ)) := by
  intro l
  induction l with
  | nil =>
    intro _ t ht
    simp [patser_search] at ht
  | cons a rest ih =>
    intro hsort t ht
    have hsrest := (List.pairwise_cons.mp hsort).2
    have hlt := (List.pairwise_cons.mp hsort).1
    simp only [patser_search] at ht
    split at ht
    · next hc =>
      cases ht
      refine ⟨List.mem_cons_self a rest, hc, ?_⟩
      intro s hs hslt
      rcases List.mem_cons.mp hs with h | h
      · exact absurd hslt (by rw [h]; exact lt_irrefl a)
      · exact absurd hslt (not_lt.mpr (le_of_lt (hlt s h)))
    · next hc =>
      obtain ⟨hmem, hsat, hmin⟩ := ih hsrest t ht
      refine ⟨List.mem_cons_of_mem a hmem, hsat, ?_⟩
      intro s hs hslt
      rcases List.mem_cons.mp hs with h | h
      · rw [h]
        exact hc
      · exact hmin s h hslt

/-- C5: when the threshold computation succeeds on a strictly
ascending discretized score distribution, the returned threshold is a
support score whose tail probability satisfies `-log2(tail) ≥ IC`, and
it is the smallest support score that does. -/
theorem threshold_patser_spec (d : List (ℚ × ℚ)) (ic : ℝ) (t : ℚ)
    (hsort : List.Pairwise (fun a b => a < b) (d.map Prod.fst))
    (hok : threshold d ic "patser" = .ok t) :
    t ∈ d.map Prod.fst ∧
    ic ≤ -log2 ((tailProb d t : ℚ) : ℝ) ∧
    ∀ s ∈ d.map Prod.fst, s < t →
      ¬ (ic ≤ -log2 ((tailProb d s : ℚ) : ℝ)) := by
  have h : patser_threshold d ic = .ok t := by
    simpa [threshold] using hok
  exact patser_search_spec ic d (d.map Prod.fst) hsort t h

/-- Witness for C5: on the one-point distribution dEx with target 0,
the threshold computation returns 1, which satisfies and minimizes the
tail condition. -/
theorem threshold_patser_spec_witness :
    (1 : ℚ) ∈ dEx.map Prod.fst ∧
    (0 : ℝ) ≤ -log2 ((tailProb dEx 1 : ℚ) : ℝ) ∧
    ∀ s ∈ dEx.map Prod.fst, s < 1 →
      ¬ ((0 : ℝ) ≤ -log2 ((tailProb dEx s : ℚ) : ℝ)) := by
  have htail : tailProb dEx 1 = 1 := by norm_num [tailProb, dEx]
  have hcond : (0 : ℝ) ≤ -log2 ((tailProb dEx 1 : ℚ) : ℝ) := by
    rw [htail]
    simp [log2]
  have hok : threshold dEx 0 "patser" = .ok 1 := by
    rw [threshold, if_pos rfl, patser_threshold]
    have hsupp : dEx.map Prod.fst = [1] := by norm_num [dEx]
    rw [hsupp]
    simp only [patser_search]
    rw [if_pos hcond]
  exact threshold_patser_spec dEx 0 1 (by simp [dEx]) hok
